import Mathlib

set_option maxHeartbeats 1000000
set_option autoImplicit false

/-
Verification development for the shell emulator with an in-memory virtual
filesystem (`emulator.py`).  The Python source is embedded shallowly:

* `splitCore` / `pySplitSlash` model Python's `str.split('/')`;
* `pyJoin` models `sep.join(list)`; `pyStrip` models `str.strip()`;
* `VFSNode` models the `VFSNode` class (name, type, content, children dict,
  the dict being an insertion-ordered association list);
* `addParts` / `addNode` model `VFS._add_node`;
* `processRow` / `loadRowsFrom` / `loadRows` model the row loop of
  `VFS.load_from_csv` (failure of the load is `none`);
* `b64decodeUtf8` models `base64.b64decode(content).decode('utf-8')`;
* `locateParts` models the walk of `VFS.get_current_dir`;
* `normalizePath`, `resolvePath`, `walkDirs`, `handle_cd` model `handle_cd`;
* `handle_ls`, `handle_command`, `shlexSplit` model the dispatcher;
* `execute_script` models `execute_script`; `runCommands` models the
  interactive loop feeding lines to `handle_command`.
-/

/-! Section: String utilities modelling Python primitives -/

/-- Model of Python `s.split('/')` at the character level: `splitCore cs acc`
splits `cs` on `'/'`, with `acc` the (reversed) characters of the chunk
currently being read. -/
def splitCore : List Char → List Char → List (List Char)
  | [], acc => [acc.reverse]
  | c :: rest, acc =>
    if c = '/' then acc.reverse :: splitCore rest []
    else splitCore rest (c :: acc)

/-- Python `s.split('/')`. -/
def pySplitSlash (s : String) : List String :=
  (splitCore s.data []).map (fun cs => String.mk cs)

/-- Python `sep.join(l)`. -/
def pyJoin (sep : String) : List String → String
  | [] => ""
  | [s] => s
  | s :: t :: rest => s ++ sep ++ pyJoin sep (t :: rest)

/-- The filter `if p` of the list comprehensions over split segments
(Python string truthiness: keep non-empty). -/
def nonemptySeg (s : String) : Bool := if s = "" then false else true

/-- The filter `if p and p != '.'` of the normalization comprehension in
`handle_cd`. -/
def keepSeg (s : String) : Bool :=
  if s = "" then false else if s = "." then false else true

/-- Python `s.startswith("/")`. -/
def startsWithSlash (s : String) : Bool :=
  match s.data with
  | '/' :: _ => true
  | _ => false

/-- Python whitespace as stripped by `str.strip()`. -/
def isPyWS (c : Char) : Bool :=
  c == ' ' || c == '\t' || c == '\n' || c == '\r' || c == '\x0b' || c == '\x0c'

/-- Python `s.strip()`. -/
def pyStrip (s : String) : String :=
  String.mk (((s.data.dropWhile isPyWS).reverse.dropWhile isPyWS).reverse)

/-- Python `s.startswith('#')`, used for script comments. -/
def firstIsHash (s : String) : Bool :=
  match s.data with
  | '#' :: _ => true
  | _ => false

/-! Section: Base64 and UTF-8 decoding, modelling `base64.b64decode(c).decode('utf-8')` -/

/-- Index of a character in the standard base64 alphabet. -/
def b64Char (c : Char) : Option Nat :=
  if 'A' ≤ c ∧ c ≤ 'Z' then some (c.toNat - 'A'.toNat)
  else if 'a' ≤ c ∧ c ≤ 'z' then some (c.toNat - 'a'.toNat + 26)
  else if '0' ≤ c ∧ c ≤ '9' then some (c.toNat - '0'.toNat + 52)
  else if c = '+' then some 62
  else if c = '/' then some 63
  else none

/-- Python `base64.b64decode` (default `validate=False`) discards characters
outside the alphabet (keeping padding) before decoding. -/
def b64Filter (cs : List Char) : List Char :=
  cs.filter (fun c => (b64Char c).isSome || c == '=')

/-- Decode the filtered base64 text, one quartet of characters at a time,
into a byte sequence (each byte a `Nat < 256`).  A trailing group of fewer
than four characters, or a quartet with misplaced padding, is the
`binascii.Error` ("Incorrect padding") case, modelled as `none`.  Python's
leniency towards stray padding in the middle of the input is not modelled;
no claim depends on it. -/
def b64DecodeQuartets : List Char → Option (List Nat)
  | [] => some []
  | e1 :: e2 :: e3 :: e4 :: rest =>
    (match b64Char e1, b64Char e2 with
     | some v1, some v2 =>
       if e3 = '=' then
         if e4 = '=' ∧ rest = [] then some [v1 * 4 + v2 / 16] else none
       else
         match b64Char e3 with
         | some v3 =>
           if e4 = '=' then
             if rest = [] then some [v1 * 4 + v2 / 16, v2 % 16 * 16 + v3 / 4]
             else none
           else
             match b64Char e4 with
             | some v4 =>
               match b64DecodeQuartets rest with
               | some bs =>
                 some ((v1 * 4 + v2 / 16) :: (v2 % 16 * 16 + v3 / 4) ::
                       (v3 % 4 * 64 + v4) :: bs)
               | none => none
             | none => none
         | none => none
     | _, _ => none)
  | _ => none

/-- Is `b` a UTF-8 continuation byte? -/
def isCont (b : Nat) : Bool := 128 ≤ b && b < 192

/-- Decode one UTF-8 scalar value from the byte stream, returning the
character and the remaining bytes, or `none` on malformed input (stray
continuation byte, overlong form, surrogate, out-of-range value). -/
def decode1 (b : Nat) (rest : List Nat) : Option (Char × List Nat) :=
  if b < 128 then some (Char.ofNat b, rest)
  else if b < 194 then none
  else if b < 224 then
    match rest with
    | b2 :: r =>
      if isCont b2 then some (Char.ofNat ((b - 192) * 64 + (b2 - 128)), r)
      else none
    | [] => none
  else if b < 240 then
    match rest with
    | b2 :: b3 :: r =>
      if isCont b2 && isCont b3 then
        let cp := (b - 224) * 4096 + (b2 - 128) * 64 + (b3 - 128)
        if 2048 ≤ cp ∧ ¬(55296 ≤ cp ∧ cp ≤ 57343) then some (Char.ofNat cp, r)
        else none
      else none
    | _ => none
  else if b < 245 then
    match rest with
    | b2 :: b3 :: b4 :: r =>
      if isCont b2 && isCont b3 && isCont b4 then
        let cp := (b - 240) * 262144 + (b2 - 128) * 4096 + (b3 - 128) * 64 +
                  (b4 - 128)
        if 65536 ≤ cp ∧ cp ≤ 1114111 then some (Char.ofNat cp, r) else none
      else none
    | _ => none
  else none

/-- Fuelled UTF-8 decoding loop; the fuel is instantiated with the length of
the byte list, which always suffices since each step consumes at least one
byte. -/
def utf8DecodeGo : Nat → List Nat → Option (List Char)
  | _, [] => some []
  | 0, _ :: _ => none
  | Nat.succ fuel, b :: rest =>
    match decode1 b rest with
    | some (c, rest2) =>
      match utf8DecodeGo fuel rest2 with
      | some cs => some (c :: cs)
      | none => none
    | none => none

/-- Python `bytes.decode('utf-8')`. -/
def utf8Decode (bytes : List Nat) : Option String :=
  match utf8DecodeGo bytes.length bytes with
  | some cs => some (String.mk cs)
  | none => none

/-- Python `base64.b64decode(s).decode('utf-8')`; `none` is the raised
exception (either `binascii.Error` or `UnicodeDecodeError`). -/
def b64decodeUtf8 (s : String) : Option String :=
  match b64DecodeQuartets (b64Filter s.data) with
  | some bytes => utf8Decode bytes
  | none => none

/-! Section: The VFS tree -/

/-- The `VFSNode` class: a name, a type string (`"dir"` or `"file"`), an
optional content string (`None` in Python is `none`), and the `children`
dict, modelled as an insertion-ordered association list. -/
inductive VFSNode : Type where
  | mk (name : String) (type : String) (content : Option String)
       (children : List (String × VFSNode)) : VFSNode

def VFSNode.name : VFSNode → String
  | .mk n _ _ _ => n

def VFSNode.type : VFSNode → String
  | .mk _ t _ _ => t

def VFSNode.content : VFSNode → Option String
  | .mk _ _ c _ => c

def VFSNode.children : VFSNode → List (String × VFSNode)
  | .mk _ _ _ ch => ch

/-- Python `key in d` / `d[key]` on the children dict: first (unique) match
in the association list. -/
def assocLookup : List (String × VFSNode) → String → Option VFSNode
  | [], _ => none
  | (k, v) :: rest, key => if k = key then some v else assocLookup rest key

/-- Python `d[key] = v` on the children dict: replace in place when the key
is present (insertion order kept), append otherwise. -/
def assocSet : List (String × VFSNode) → String → VFSNode →
    List (String × VFSNode)
  | [], key, v => [(key, v)]
  | (k, w) :: rest, key, v =>
    if k = key then (key, v) :: rest else (k, w) :: assocSet rest key v

/-- The root node built by `VFS.__init__`: `VFSNode("", "dir")`. -/
def initialRoot : VFSNode := VFSNode.mk "" "dir" none []

/-- The list `[p for p in path.split('/') if p]` used by `_add_node`,
`get_current_dir` and the existence check of `handle_cd`. -/
def pathParts (s : String) : List String :=
  (pySplitSlash s).filter nonemptySeg

/-- The walking loop of `VFS._add_node` on the non-empty segment list: for
every segment before the last, look the child up, creating a fresh
`VFSNode(part, "dir")` when it is missing; the final segment is bound to a
freshly constructed node, overwriting any existing entry. -/
def addParts : VFSNode → List String → String → Option String → VFSNode
  | t, [], _, _ => t
  | VFSNode.mk nm tp ct ch, [last], ty, c =>
    VFSNode.mk nm tp ct (assocSet ch last (VFSNode.mk last ty c []))
  | VFSNode.mk nm tp ct ch, part :: next :: rest, ty, c =>
    let child :=
      match assocLookup ch part with
      | some x => x
      | none => VFSNode.mk part "dir" none []
    VFSNode.mk nm tp ct (assocSet ch part (addParts child (next :: rest) ty c))

/-- Model of `VFS._add_node(path, node_type, content)`: a path of exactly `/` is a
no-op; a path with no non-empty segment makes `parts[-1]` raise `IndexError`
(propagated by `load_from_csv` as a load failure), modelled as `none`. -/
def addNode (t : VFSNode) (path ty : String) (c : Option String) :
    Option VFSNode :=
  if path = "/" then some t
  else
    match pathParts path with
    | [] => none
    | part :: rest => some (addParts t (part :: rest) ty c)

/-! Section: The loader (`VFS.load_from_csv` row loop) -/

/-- One row of the serialized VFS source. -/
structure Row where
  path : String
  type : String
  content : String

/-- The string stored by the Python loader when base64 decoding of a file's
content raises: `f"Error decoding content: {e}"`.  The exact exception text
depends on the Python runtime; it is modelled by this fixed string, which is
enough because no claim depends on the exact message, only on the fact that
the loader stores an error string and continues. -/
def decodeErrorText : String := "Error decoding content: <exception>"

/-- Lines 26-34 of the loader: for a file row with non-empty (truthy)
content, decode it from base64, storing the error message on failure; any
other row keeps its raw content string. -/
def rowContentValue (ty c : String) : String :=
  if ty = "file" ∧ c ≠ "" then
    match b64decodeUtf8 c with
    | some s => s
    | none => decodeErrorText
  else c

/-- Process one row of the source: decode the content and call `_add_node`. -/
def processRow (t : VFSNode) (r : Row) : Option VFSNode :=
  addNode t r.path r.type (some (rowContentValue r.type r.content))

/-- The row loop of `load_from_csv`, starting from tree `t`: process each
row in order, propagating failure (a raised exception aborts the loop). -/
def loadRowsFrom (t : VFSNode) : List Row → Option VFSNode
  | [] => some t
  | r :: rest => (processRow t r).bind (fun t2 => loadRowsFrom t2 rest)

/-- Model of `VFS()` followed by `load_from_csv`: build the tree from the row list,
starting from the pre-existing root. -/
def loadRows (rows : List Row) : Option VFSNode :=
  loadRowsFrom initialRoot rows

/-! Section: Path resolution and the session -/

/-- The pure walk of `VFS.get_current_dir` (and the spec's `locate`): follow
each segment through the children dict, with no type checks. -/
def locateParts : VFSNode → List String → Option VFSNode
  | t, [] => some t
  | t, p :: rest =>
    match assocLookup t.children p with
    | some child => locateParts child rest
    | none => none

/-- The existence check of `handle_cd` (lines 142-148): every segment must
name a child of type `"dir"`. -/
def walkDirs : VFSNode → List String → Option VFSNode
  | t, [] => some t
  | t, p :: rest =>
    match assocLookup t.children p with
    | some child => if child.type = "dir" then walkDirs child rest else none
    | none => none

/-- Step of the normalization loop of `handle_cd`: `..` pops the stack when
it is non-empty (a no-op past the root), every other segment is pushed. -/
def normSegsStep (stack : List String) (part : String) : List String :=
  if part = ".." then (if stack = [] then stack else stack.dropLast)
  else stack ++ [part]

/-- The normalization loop over the filtered segments. -/
def normSegs (parts : List String) : List String :=
  parts.foldl normSegsStep []

/-- Lines 130-139 of `handle_cd`: split on `/`, drop empty and `.` segments,
resolve `..` against the stack, and rebuild `"/" + "/".join(stack)`. -/
def normalizePath (p : String) : String :=
  "/" ++ pyJoin "/" (normSegs ((pySplitSlash p).filter keepSeg))

/-- Lines 120-139 of `handle_cd` (the spec's `resolve`): absolute targets
are taken as is, relative ones are joined onto the current path, and the
result is normalized. -/
def resolvePath (current target : String) : String :=
  normalizePath
    (if startsWithSlash target then target
     else if current = "/" then "/" ++ target
     else current ++ "/" ++ target)

/-- The `VFS` session state: the tree root and the current path. -/
structure VFS where
  root : VFSNode
  current_path : String

/-- Model of `VFS.get_current_dir`. -/
def getCurrentDir (v : VFS) : Option VFSNode :=
  locateParts v.root (pathParts v.current_path)

/-! Section: The command dispatcher -/

/-- Model of `handle_ls(args, vfs)`.  Note that the Python function never inspects
`args`. -/
def handle_ls (args : List String) (vfs : Option VFS) : String :=
  match vfs with
  | none => "VFS not loaded"
  | some v =>
    match getCurrentDir v with
    | none => "Invalid directory"
    | some cur =>
      if cur.type ≠ "dir" then "Not a directory"
      else
        let items := cur.children.map Prod.fst
        if items ≠ [] then pyJoin " " items else ""

/-- Model of `handle_cd(args, vfs)`: exactly one argument is required; the target is
resolved, the resolved path is walked requiring a directory at every
segment, and only on success is `current_path` updated. -/
def handle_cd (args : List String) (ovfs : Option VFS) : String × Option VFS :=
  match ovfs with
  | none => ("VFS not loaded", none)
  | some vfs =>
    match args with
    | [target_path] =>
      let new_path := resolvePath vfs.current_path target_path
      match walkDirs vfs.root (pathParts new_path) with
      | some _ => ("", some (VFS.mk vfs.root new_path))
      | none => ("cd: " ++ target_path ++ ": No such directory", some vfs)
    | _ => ("cd: missing argument", some vfs)

/-- Result of one dispatched command: either a returned string, or the
`sys.exit(0)` of the `exit` command (which in Python terminates the whole
process after printing `Exiting emulator.`). -/
inductive CmdOutcome : Type where
  | result (out : String) : CmdOutcome
  | exit : CmdOutcome

/-- Whitespace as recognised by `shlex.split`. -/
def isShlexWS (c : Char) : Bool :=
  c == ' ' || c == '\t' || c == '\r' || c == '\n'

/-- State machine of `shlex.split` (POSIX mode) as exercised by the
emulator: whitespace separates tokens, single and double quotes group
characters (adjacent quoted parts concatenate, `''` is an empty token), and
an unterminated quote raises `ValueError`, modelled as `none`.  Backslash
escaping is not modelled; no claim exercises it. -/
def shlexGo : List Char → Option Char → Option (List Char) →
    List (List Char) → Option (List (List Char))
  | [], some _, _, _ => none
  | [], none, none, acc => some acc.reverse
  | [], none, some tok, acc => some (tok.reverse :: acc).reverse
  | ch :: rest, some q, tok, acc =>
    if ch = q then shlexGo rest none (some (tok.getD [])) acc
    else shlexGo rest (some q) (some (ch :: tok.getD [])) acc
  | ch :: rest, none, tok, acc =>
    if isShlexWS ch then
      match tok with
      | some tk => shlexGo rest none none (tk.reverse :: acc)
      | none => shlexGo rest none none acc
    else if ch == '\'' || ch == '"' then
      shlexGo rest (some ch) (some (tok.getD [])) acc
    else shlexGo rest none (some (ch :: tok.getD [])) acc

/-- Model of `shlex.split(command_line)`. -/
def shlexSplit (s : String) : Option (List String) :=
  match shlexGo s.data none none [] with
  | some toks => some (toks.map (fun cs => String.mk cs))
  | none => none

/-- Model of `handle_command(command_line, vfs)`: tokenize, then dispatch on the
first token; a `ValueError` from the tokenizer is returned as a parsing
error string.  The returned pair carries the (possibly updated) session. -/
def handle_command (command_line : String) (vfs : Option VFS) :
    CmdOutcome × Option VFS :=
  match shlexSplit command_line with
  | none => (CmdOutcome.result "Parsing error: No closing quotation", vfs)
  | some [] => (CmdOutcome.result "", vfs)
  | some (cmd :: args) =>
    if cmd = "exit" then (CmdOutcome.exit, vfs)
    else if cmd = "ls" then (CmdOutcome.result (handle_ls args vfs), vfs)
    else if cmd = "cd" then
      let p := handle_cd args vfs
      (CmdOutcome.result p.1, p.2)
    else (CmdOutcome.result ("Command not found: " ++ cmd), vfs)

/-- Model of `execute_script(script_path, vfs)`, abstracted over the list of script
lines: strip each line, skip empty and `#`-comment lines, run the rest in
order through `handle_command`, collecting every non-empty result string.
The prompt echo (out of scope per the spec) is not collected.  The third
component records whether an `exit` command terminated the process, which is
the only way the remaining lines are skipped. -/
def execute_script : List String → Option VFS → Option VFS × List String × Bool
  | [], vfs => (vfs, [], false)
  | line :: rest, vfs =>
    let l := pyStrip line
    if l ≠ "" ∧ firstIsHash l = false then
      match handle_command l vfs with
      | (CmdOutcome.exit, v) => (v, [], true)
      | (CmdOutcome.result out, v) =>
        let r := execute_script rest v
        (r.1, (if out ≠ "" then [out] else []) ++ r.2.1, r.2.2)
    else execute_script rest vfs

/-- The interactive loop: feed each line to `handle_command`, threading the
session state, stopping when `exit` terminates the process. -/
def runCommands : List String → Option VFS → Option VFS
  | [], vfs => vfs
  | line :: rest, vfs =>
    match handle_command line vfs with
    | (CmdOutcome.exit, v) => v
    | (CmdOutcome.result _, v) => runCommands rest v

/-! Section: Notions used to state the claims -/

/-- A segment of a normalized absolute path: non-empty, not `.` or `..`,
and containing no separator. -/
def goodSeg (s : String) : Prop :=
  s ≠ "" ∧ s ≠ "." ∧ s ≠ ".." ∧ '/' ∉ s.data

instance (s : String) : Decidable (goodSeg s) := by
  unfold goodSeg; infer_instance

/-- The normalized absolute path with the given segments. -/
def mkPath (segs : List String) : String := "/" ++ pyJoin "/" segs

/-- Is the first list a prefix of the second (segment lists)? -/
def isPre : List String → List String → Bool
  | [], _ => true
  | _ :: _, [] => false
  | a :: as, b :: bs => a == b && isPre as bs

/-- A sample tree: root containing one directory `a`. -/
def sampleRoot : VFSNode :=
  VFSNode.mk "" "dir" none [("a", VFSNode.mk "a" "dir" none [])]

/-- A session on `sampleRoot` at the root. -/
def sampleVfs : VFS := VFS.mk sampleRoot "/"

/-- A sample tree: root containing one directory `docs`. -/
def docsRoot : VFSNode :=
  VFSNode.mk "" "dir" none [("docs", VFSNode.mk "docs" "dir" (some "") [])]

/-- A session on `docsRoot` at the root. -/
def docsVfs : VFS := VFS.mk docsRoot "/"


/-! Section: Helper lemmas about the children dict -/

theorem assocLookup_set_self (ch : List (String × VFSNode)) (k : String)
    (v : VFSNode) : assocLookup (assocSet ch k v) k = some v := by
  induction ch with
  | nil => simp [assocSet, assocLookup]
  | cons hd tl ih =>
    obtain ⟨k0, w⟩ := hd
    by_cases hk : k0 = k
    · simp [assocSet, hk, assocLookup]
    · simp [assocSet, hk, assocLookup, ih]

theorem assocLookup_set_ne (ch : List (String × VFSNode)) (k k2 : String)
    (v : VFSNode) (h : k ≠ k2) :
    assocLookup (assocSet ch k v) k2 = assocLookup ch k2 := by
  induction ch with
  | nil => simp [assocSet, assocLookup, h]
  | cons hd tl ih =>
    obtain ⟨k0, w⟩ := hd
    by_cases hk : k0 = k
    · simp [assocSet, hk, assocLookup, h]
    · simp [assocSet, hk, assocLookup, ih]

/-! Section: Helper lemmas about `addParts` and `locateParts` -/

theorem addParts_type (t : VFSNode) (parts : List String) (ty : String)
    (c : Option String) : (addParts t parts ty c).type = t.type := by
  cases t with
  | mk nm tp ct ch =>
    cases parts with
    | nil => rfl
    | cons p rest =>
      cases rest with
      | nil => rfl
      | cons q rs => rfl

theorem addParts_content (t : VFSNode) (parts : List String) (ty : String)
    (c : Option String) : (addParts t parts ty c).content = t.content := by
  cases t with
  | mk nm tp ct ch =>
    cases parts with
    | nil => rfl
    | cons p rest =>
      cases rest with
      | nil => rfl
      | cons q rs => rfl

theorem locateParts_nil (t : VFSNode) : locateParts t [] = some t := rfl

theorem locateParts_fresh (nm tp : String) (c : Option String) (x : String)
    (xs : List String) :
    locateParts (VFSNode.mk nm tp c []) (x :: xs) = none := by
  simp [locateParts, VFSNode.children, assocLookup]

/-- After `_add_node` runs on a non-empty segment list, the walk along
exactly those segments reaches the freshly constructed node (declared type,
decoded content, no children): the final segment is overwritten
unconditionally. -/
theorem locateParts_addParts_self (parts : List String) :
    ∀ (t : VFSNode) (ty : String) (c : Option String), parts ≠ [] →
    ∃ nm, locateParts (addParts t parts ty c) parts =
      some (VFSNode.mk nm ty c []) := by
  induction parts with
  | nil => intro t ty c h; exact absurd rfl h
  | cons p rest ih =>
    intro t ty c _
    cases t with
    | mk nm tp ct ch =>
      cases rest with
      | nil =>
        refine ⟨p, ?_⟩
        simp [addParts, locateParts, VFSNode.children, assocLookup_set_self]
      | cons q rs =>
        obtain ⟨nm2, hnm2⟩ := ih _ ty c (by simp)
        refine ⟨nm2, ?_⟩
        simp only [addParts, locateParts, VFSNode.children,
          assocLookup_set_self]
        exact hnm2

/-- Adding a record whose segment list is not a prefix of `parts` preserves
the type and content of the node that `parts` locates. -/
theorem locateParts_addParts_ne (qparts : List String) :
    ∀ (parts : List String) (t n : VFSNode) (ty : String) (c : Option String),
    locateParts t parts = some n → isPre qparts parts = false →
    ∃ n2, locateParts (addParts t qparts ty c) parts = some n2 ∧
      n2.type = n.type ∧ n2.content = n.content := by
  induction qparts with
  | nil => intro parts t n ty c _ hpre; simp [isPre] at hpre
  | cons q1 qrest ih =>
    intro parts t n ty c hloc hpre
    cases t with
    | mk nm tp ct ch =>
      cases qrest with
      | nil =>
        cases parts with
        | nil =>
          simp only [locateParts] at hloc
          refine ⟨_, locateParts_nil _, ?_⟩
          obtain rfl : VFSNode.mk nm tp ct ch = n := by
            injection hloc
          simp [addParts, VFSNode.type, VFSNode.content]
        | cons p ps =>
          have hq1p : q1 ≠ p := by
            intro h0
            subst h0
            simp [isPre] at hpre
          refine ⟨n, ?_, rfl, rfl⟩
          simp only [addParts, locateParts, VFSNode.children,
            assocLookup_set_ne _ _ _ _ hq1p]
          simpa only [locateParts, VFSNode.children] using hloc
      | cons q2 qs =>
        cases parts with
        | nil =>
          simp only [locateParts] at hloc
          refine ⟨_, locateParts_nil _, ?_⟩
          obtain rfl : VFSNode.mk nm tp ct ch = n := by
            injection hloc
          simp [addParts, VFSNode.type, VFSNode.content]
        | cons p ps =>
          by_cases hq1p : q1 = p
          · subst hq1p
            have hpre2 : isPre (q2 :: qs) ps = false := by
              simpa [isPre] using hpre
            simp only [locateParts, VFSNode.children] at hloc
            cases hlk : assocLookup ch q1 with
            | none => rw [hlk] at hloc; simp at hloc
            | some child0 =>
              rw [hlk] at hloc
              obtain ⟨n2, hn2, hty, hct⟩ := ih ps child0 n ty c hloc hpre2
              refine ⟨n2, ?_, hty, hct⟩
              simp only [addParts, locateParts, VFSNode.children,
                assocLookup_set_self, hlk]
              exact hn2
          · refine ⟨n, ?_, rfl, rfl⟩
            simp only [addParts, locateParts, VFSNode.children,
              assocLookup_set_ne _ _ _ _ hq1p]
            simpa only [locateParts, VFSNode.children] using hloc

/-- Every intermediate segment of a processed record exists in the result,
and is a fresh `"dir"` node whenever it was missing before. -/
theorem addParts_take_dirs (parts : List String) :
    ∀ (t : VFSNode) (ty : String) (c : Option String) (k : Nat),
    k + 1 < parts.length →
    ∃ n, locateParts (addParts t parts ty c) (parts.take (k + 1)) = some n ∧
      (locateParts t (parts.take (k + 1)) = none → n.type = "dir") := by
  induction parts with
  | nil => intro t ty c k hk; simp at hk
  | cons p rest ih =>
    intro t ty c k hk
    cases t with
    | mk nm tp ct ch =>
      cases rest with
      | nil => simp at hk
      | cons q rs =>
        cases k with
        | zero =>
          cases hlk : assocLookup ch p with
          | some c0 =>
            refine ⟨addParts c0 (q :: rs) ty c, ?_, ?_⟩
            · rw [List.take_succ_cons]
              simp only [List.take_zero, addParts, hlk, locateParts,
                VFSNode.children, assocLookup_set_self]
            · intro hmiss
              exfalso
              rw [List.take_succ_cons, List.take_zero] at hmiss
              simp [locateParts, VFSNode.children, hlk] at hmiss
          | none =>
            refine ⟨addParts (VFSNode.mk p "dir" none []) (q :: rs) ty c,
              ?_, ?_⟩
            · rw [List.take_succ_cons]
              simp only [List.take_zero, addParts, hlk, locateParts,
                VFSNode.children, assocLookup_set_self]
            · intro _
              rw [addParts_type]
              rfl
        | succ j =>
          have hj : j + 1 < (q :: rs).length := by
            simp at hk ⊢; omega
          cases hlk : assocLookup ch p with
          | some c0 =>
            obtain ⟨n, hn, hdir⟩ := ih c0 ty c j hj
            refine ⟨n, ?_, ?_⟩
            · rw [List.take_succ_cons]
              simp only [addParts, hlk, locateParts, VFSNode.children,
                assocLookup_set_self]
              exact hn
            · intro hmiss
              apply hdir
              rw [List.take_succ_cons] at hmiss
              simpa [locateParts, VFSNode.children, hlk] using hmiss
          | none =>
            obtain ⟨n, hn, hdir⟩ := ih (VFSNode.mk p "dir" none []) ty c j hj
            refine ⟨n, ?_, ?_⟩
            · rw [List.take_succ_cons]
              simp only [addParts, hlk, locateParts, VFSNode.children,
                assocLookup_set_self]
              exact hn
            · intro _
              apply hdir
              rw [List.take_succ_cons]
              exact locateParts_fresh _ _ _ _ _

theorem pathParts_slash : pathParts "/" = [] := by decide

/-- Running `_add_node` on a path with at least one non-empty segment always
succeeds and leaves the freshly built node at that path. -/
theorem addNode_sets (t : VFSNode) (path ty : String) (c : Option String)
    (hp : path ≠ "/") (hne : pathParts path ≠ []) :
    ∃ t2, addNode t path ty c = some t2 ∧
      ∃ nm, locateParts t2 (pathParts path) = some (VFSNode.mk nm ty c []) := by
  unfold addNode
  rw [if_neg hp]
  cases hpp : pathParts path with
  | nil => exact absurd hpp hne
  | cons p rest =>
    exact ⟨_, rfl, locateParts_addParts_self (p :: rest) t ty c (by simp)⟩

/-! Section: Claims C1, C2, C3 -/

/-- Claim C1 counterexample.  The claim states that a record whose path has
a missing intermediate segment makes the load fail with MissingParent and
that directories are never implicitly created.  On the code, loading the
single record `/a/b` (file, base64 of "x") into the fresh root succeeds and
implicitly creates the intermediate directory node `a`. -/
theorem C1_missing_parent_counterexample :
    loadRows [Row.mk "/a/b" "file" "eA=="] =
      some (VFSNode.mk "" "dir" none
        [("a", VFSNode.mk "a" "dir" none
          [("b", VFSNode.mk "b" "file" (some "x") [])])]) := by rfl

/-- Claim C1, amended: when the loader processes a record whose path has an
intermediate segment, it does not fail; every intermediate prefix of the
path exists in the resulting tree, and whenever it was missing before, the
loader implicitly created it as a Directory node. -/
theorem C1_implicit_dirs (t : VFSNode) (path ty : String) (c : Option String)
    (k : Nat) (hk : k + 1 < (pathParts path).length) :
    ∃ t2, addNode t path ty c = some t2 ∧
      ∃ n, locateParts t2 ((pathParts path).take (k + 1)) = some n ∧
        (locateParts t ((pathParts path).take (k + 1)) = none →
          n.type = "dir") := by
  have hp : path ≠ "/" := by
    intro h0
    rw [h0, pathParts_slash] at hk
    simp at hk
  unfold addNode
  rw [if_neg hp]
  cases hpp : pathParts path with
  | nil => rw [hpp] at hk; simp at hk
  | cons p rest =>
    rw [hpp] at hk
    exact ⟨_, rfl, addParts_take_dirs (p :: rest) t ty c k hk⟩

theorem C1_implicit_dirs_witness :
    ∃ t2, addNode initialRoot "/a/b" "file" (some "x") = some t2 ∧
      ∃ n, locateParts t2 ((pathParts "/a/b").take 1) = some n ∧
        (locateParts initialRoot ((pathParts "/a/b").take 1) = none →
          n.type = "dir") :=
  C1_implicit_dirs initialRoot "/a/b" "file" (some "x") 0 (by decide)

/-- Claim C2 counterexample.  The claim states that declaring the same path
once as `dir` and once as `file` fails the load with TypeConflict and no
tree is produced.  On the code, such a source loads successfully: the later
record silently overwrites the earlier node. -/
theorem C2_type_conflict_counterexample :
    loadRows [Row.mk "/a" "dir" "", Row.mk "/a" "file" "aGk="] =
      some (VFSNode.mk "" "dir" none
        [("a", VFSNode.mk "a" "file" (some "hi") [])]) := by rfl

/-- Claim C2, amended: when the final segment of a record's path already
exists, the loader does not check its recorded type against the declared
one; it unconditionally replaces the node with a fresh node of the newly
declared type, and the load does not fail with TypeConflict. -/
theorem C2_redeclaration_overwrites (t : VFSNode) (path ty : String)
    (c : Option String) (hp : path ≠ "/") (hne : pathParts path ≠ []) :
    ∃ t2, addNode t path ty c = some t2 ∧
      ∃ nm, locateParts t2 (pathParts path) =
        some (VFSNode.mk nm ty c []) :=
  addNode_sets t path ty c hp hne

theorem C2_redeclaration_overwrites_witness :
    ∃ t2, addNode sampleRoot "/a" "file" (some "hi") = some t2 ∧
      ∃ nm, locateParts t2 (pathParts "/a") =
        some (VFSNode.mk nm "file" (some "hi") []) :=
  C2_redeclaration_overwrites sampleRoot "/a" "file" (some "hi")
    (by decide) (by decide)

/-- Claim C3 counterexample.  The claim states that a file record with
non-base64 content fails the load with BadEncoding and no partial tree is
exposed.  On the code, loading the single record `/f` (file, content `AB`,
which is not valid base64: incorrect padding) succeeds, storing an error
message string as the file's content. -/
theorem C3_bad_encoding_counterexample :
    loadRows [Row.mk "/f" "file" "AB"] =
      some (VFSNode.mk "" "dir" none
        [("f", VFSNode.mk "f" "file" (some decodeErrorText) [])]) := by rfl

/-- Claim C3, amended: a file record whose non-empty content fails base64
decoding does not fail the load; the loader stores the decoding error
message as the file's content and continues building the tree. -/
theorem C3_bad_base64_no_failure (t : VFSNode) (path c : String)
    (hbad : b64decodeUtf8 c = none) (hc : c ≠ "") (hp : path ≠ "/")
    (hne : pathParts path ≠ []) :
    ∃ t2, processRow t (Row.mk path "file" c) = some t2 ∧
      ∃ nm, locateParts t2 (pathParts path) =
        some (VFSNode.mk nm "file" (some decodeErrorText) []) := by
  have hval : rowContentValue "file" c = decodeErrorText := by
    unfold rowContentValue
    rw [if_pos ⟨rfl, hc⟩, hbad]
  show ∃ t2, addNode t path "file" (some (rowContentValue "file" c)) =
      some t2 ∧ _
  rw [hval]
  exact addNode_sets t path "file" (some decodeErrorText) hp hne

theorem C3_bad_base64_no_failure_witness :
    ∃ t2, processRow initialRoot (Row.mk "/f" "file" "AB") = some t2 ∧
      ∃ nm, locateParts t2 (pathParts "/f") =
        some (VFSNode.mk nm "file" (some decodeErrorText) []) :=
  C3_bad_base64_no_failure initialRoot "/f" "AB" (by decide) (by decide)
    (by decide) (by decide)

/-! Section: Claims C4 and C7: the dispatcher -/

/-- Claim C4 counterexample.  The claim states that the dispatcher
implements a `mkdir` command creating a Directory child.  On the code,
`mkdir x` in a session whose current directory has no child `x` does not
create anything: the dispatcher has no `mkdir` branch, returns a
"Command not found" result, and leaves the session (tree included)
unchanged. -/
theorem C4_mkdir_counterexample :
    handle_command "mkdir x" (some sampleVfs) =
      (CmdOutcome.result "Command not found: mkdir", some sampleVfs) := by rfl

/-- Claim C4, amended: the dispatcher does not implement `mkdir`; every
command line whose first token is `mkdir` falls through to the unknown
command branch, returning `Command not found: mkdir` and leaving the
session state unchanged. -/
theorem C4_mkdir_not_implemented (line : String) (vfs : Option VFS)
    (args : List String) (h : shlexSplit line = some ("mkdir" :: args)) :
    handle_command line vfs =
      (CmdOutcome.result "Command not found: mkdir", vfs) := by
  simp [handle_command, h]

theorem C4_mkdir_not_implemented_witness :
    handle_command "mkdir x" (some docsVfs) =
      (CmdOutcome.result "Command not found: mkdir", some docsVfs) :=
  C4_mkdir_not_implemented "mkdir x" (some docsVfs) ["x"] (by decide)

/-- Claim C7 counterexample.  The claim states that `ls` with an extra
argument fails with a too-many-arguments error.  On the code,
`ls extra_arg` succeeds and lists the current directory exactly as a bare
`ls` would: `handle_ls` never inspects its argument list. -/
theorem C7_ls_extra_arg_counterexample :
    handle_command "ls extra_arg" (some docsVfs) =
      (CmdOutcome.result "docs", some docsVfs) := by rfl

/-- Claim C7, amended: `ls` ignores its arguments entirely — dispatching a
line whose first token is `ls` returns the listing of the current directory
and leaves the session unchanged, and the result is independent of the
argument list (no too-many-arguments error exists). -/
theorem C7_ls_ignores_args (args args2 : List String) (vfs : Option VFS)
    (line : String) (h : shlexSplit line = some ("ls" :: args)) :
    handle_command line vfs = (CmdOutcome.result (handle_ls args vfs), vfs) ∧
    handle_ls args vfs = handle_ls args2 vfs := by
  constructor
  · simp [handle_command, h]
  · rfl

theorem C7_ls_ignores_args_witness :
    handle_command "ls extra_arg" (some sampleVfs) =
      (CmdOutcome.result (handle_ls ["extra_arg"] (some sampleVfs)),
        some sampleVfs) ∧
    handle_ls ["extra_arg"] (some sampleVfs) = handle_ls [] (some sampleVfs) :=
  C7_ls_ignores_args ["extra_arg"] [] (some sampleVfs) "ls extra_arg"
    (by decide)

/-! Section: Claim C5: cd failure behaviour -/

/-- A successful `walkDirs` from a directory node implies the plain lookup
walk reaches the same node and that node is a directory. -/
theorem walkDirs_locate (parts : List String) :
    ∀ (t n : VFSNode), t.type = "dir" → walkDirs t parts = some n →
    locateParts t parts = some n ∧ n.type = "dir" := by
  induction parts with
  | nil =>
    intro t n ht hw
    simp only [walkDirs] at hw
    obtain rfl : t = n := by injection hw
    exact ⟨rfl, ht⟩
  | cons p rest ih =>
    intro t n ht hw
    simp only [walkDirs] at hw
    split at hw
    next child hlk =>
      split at hw
      next hd =>
        obtain ⟨hl, hn⟩ := ih child n hd hw
        refine ⟨?_, hn⟩
        simp only [locateParts, hlk]
        exact hl
      next hd => cases hw
    next hlk => cases hw

/-- Claim C5: if the resolved target path names a node that is missing or
is not a directory, `cd` answers "No such directory" and leaves both the
current path and the tree unchanged; and whenever `cd` changes the session,
it produced an empty result, kept the tree, and set `current_path` to the
resolved path, which it verified names a Directory node. -/
theorem C5_cd_failure_preserves_state (v : VFS) (target : String)
    (hroot : v.root.type = "dir") :
    ((locateParts v.root
        (pathParts (resolvePath v.current_path target)) = none ∨
      (∃ n, locateParts v.root
          (pathParts (resolvePath v.current_path target)) = some n ∧
        n.type ≠ "dir")) →
      handle_cd [target] (some v) =
        ("cd: " ++ target ++ ": No such directory", some v)) ∧
    (∀ res v2, handle_cd [target] (some v) = (res, some v2) →
      v2 = v ∨ (res = "" ∧ v2.root = v.root ∧
        v2.current_path = resolvePath v.current_path target ∧
        ∃ n, locateParts v.root
            (pathParts (resolvePath v.current_path target)) = some n ∧
          n.type = "dir")) := by
  constructor
  · intro hbad
    have hw : walkDirs v.root
        (pathParts (resolvePath v.current_path target)) = none := by
      cases hwd : walkDirs v.root
          (pathParts (resolvePath v.current_path target)) with
      | none => rfl
      | some m =>
        exfalso
        obtain ⟨hl, hm⟩ := walkDirs_locate _ v.root m hroot hwd
        cases hbad with
        | inl h0 => rw [hl] at h0; cases h0
        | inr h0 =>
          obtain ⟨n, hn, hnd⟩ := h0
          rw [hl] at hn
          obtain rfl : m = n := by injection hn
          exact hnd hm
    simp [handle_cd, hw]
  · intro res v2 hcd
    cases hwd : walkDirs v.root
        (pathParts (resolvePath v.current_path target)) with
    | none =>
      left
      simp [handle_cd, hwd] at hcd
      exact hcd.2.symm
    | some m =>
      right
      simp [handle_cd, hwd] at hcd
      obtain ⟨hl, hm⟩ := walkDirs_locate _ v.root m hroot hwd
      refine ⟨hcd.1.symm, ?_, ?_, ⟨m, hl, hm⟩⟩
      · rw [← hcd.2]
      · rw [← hcd.2]

theorem C5_cd_witness :
    handle_cd ["/nonexistent"] (some sampleVfs) =
      ("cd: " ++ "/nonexistent" ++ ": No such directory", some sampleVfs) := by
  apply (C5_cd_failure_preserves_state sampleVfs "/nonexistent" (by decide)).1
  left
  rfl

/-! Section: Claim C6: path normalization algebra -/

theorem strData_append (a b : String) : (a ++ b).data = a.data ++ b.data := by
  cases a
  cases b
  rfl

theorem strMk_data (s : String) : String.mk s.data = s := by
  cases s
  rfl

theorem map_mk_map_data (l : List String) :
    (l.map String.data).map (fun cs => String.mk cs) = l := by
  induction l with
  | nil => rfl
  | cons s rest ih => simp [strMk_data, ih]

theorem splitCore_no_slash (xs : List Char) (h : '/' ∉ xs) :
    ∀ acc, splitCore xs acc = [acc.reverse ++ xs] := by
  induction xs with
  | nil => intro acc; simp [splitCore]
  | cons c rest ih =>
    intro acc
    have hc : ¬(c = '/') := fun h0 => h (h0 ▸ List.mem_cons_self c rest)
    have hr : '/' ∉ rest := fun h0 => h (List.mem_cons_of_mem c h0)
    simp [splitCore, hc, ih hr]

theorem splitCore_append (xs ys : List Char) :
    ∀ acc, splitCore (xs ++ '/' :: ys) acc =
      splitCore xs acc ++ splitCore ys [] := by
  induction xs with
  | nil => intro acc; simp [splitCore]
  | cons c rest ih =>
    intro acc
    by_cases hc : c = '/'
    · simp [splitCore, hc, ih]
    · simp [splitCore, hc, ih]

theorem split_join (segs : List String) (hne : segs ≠ [])
    (h : ∀ s ∈ segs, '/' ∉ s.data) :
    splitCore (pyJoin "/" segs).data [] = segs.map String.data := by
  induction segs with
  | nil => exact absurd rfl hne
  | cons s rest ih =>
    cases rest with
    | nil =>
      simp only [pyJoin, List.map]
      exact splitCore_no_slash s.data (h s (List.mem_cons_self s [])) []
    | cons t rs =>
      have hdata : (pyJoin "/" (s :: t :: rs)).data =
          s.data ++ '/' :: (pyJoin "/" (t :: rs)).data := by
        show ((s ++ "/") ++ pyJoin "/" (t :: rs)).data = _
        rw [strData_append, strData_append]
        simp
      rw [hdata, splitCore_append,
        splitCore_no_slash s.data (h s (List.mem_cons_self s _)) [],
        ih (by simp) (fun x hx => h x (List.mem_cons_of_mem s hx))]
      simp

theorem mkPath_data (segs : List String) :
    (mkPath segs).data = '/' :: (pyJoin "/" segs).data := by
  show ("/" ++ pyJoin "/" segs).data = _
  rw [strData_append]
  rfl

theorem mkPath_split (segs : List String) (hne : segs ≠ [])
    (h : ∀ s ∈ segs, '/' ∉ s.data) :
    pySplitSlash (mkPath segs) = "" :: segs := by
  unfold pySplitSlash
  rw [mkPath_data]
  have h1 : splitCore ('/' :: (pyJoin "/" segs).data) [] =
      [] :: splitCore (pyJoin "/" segs).data [] := by
    simp [splitCore]
  rw [h1]
  simp only [List.map_cons]
  rw [split_join segs hne h, map_mk_map_data]

theorem pySplitSlash_append_seg (p x : String) (hx : '/' ∉ x.data) :
    pySplitSlash (p ++ "/" ++ x) = pySplitSlash p ++ [x] := by
  unfold pySplitSlash
  have hdata : (p ++ "/" ++ x).data = p.data ++ '/' :: x.data := by
    rw [strData_append, strData_append]
    simp
  rw [hdata, splitCore_append, splitCore_no_slash x.data hx []]
  simp [strMk_data]

theorem filter_keepSeg_good (segs : List String)
    (h : ∀ s ∈ segs, s ≠ "" ∧ s ≠ ".") : segs.filter keepSeg = segs := by
  induction segs with
  | nil => rfl
  | cons s rest ih =>
    have hs := h s (List.mem_cons_self s rest)
    have hkeep : keepSeg s = true := by
      simp [keepSeg, hs.1, hs.2]
    simp [List.filter, hkeep,
      ih (fun x hx => h x (List.mem_cons_of_mem s hx))]

theorem normSegs_push (segs : List String) (h : ∀ s ∈ segs, s ≠ "..") :
    ∀ acc, List.foldl normSegsStep acc segs = acc ++ segs := by
  induction segs with
  | nil => intro acc; simp
  | cons s rest ih =>
    intro acc
    have hs : ¬(s = "..") := h s (List.mem_cons_self s rest)
    have hstep : normSegsStep acc s = acc ++ [s] := by
      simp [normSegsStep, hs]
    simp only [List.foldl, hstep]
    rw [ih (fun x hx => h x (List.mem_cons_of_mem s hx))]
    simp

theorem normSegs_no_dotdot (parts : List String) :
    ∀ acc, (∀ x ∈ acc, x ≠ "..") →
    ∀ x ∈ List.foldl normSegsStep acc parts, x ≠ ".." := by
  induction parts with
  | nil => intro acc hacc; exact hacc
  | cons p rest ih =>
    intro acc hacc
    apply ih
    intro x hx
    unfold normSegsStep at hx
    by_cases hp : p = ".."
    · rw [if_pos hp] at hx
      by_cases hz : acc = []
      · rw [if_pos hz] at hx
        exact hacc x hx
      · rw [if_neg hz] at hx
        exact hacc x (List.mem_of_mem_dropLast hx)
    · rw [if_neg hp] at hx
      rcases List.mem_append.1 hx with h1 | h1
      · exact hacc x h1
      · rw [List.mem_singleton.1 h1]
        exact hp

theorem mkPath_ne_root (s : String) (ss : List String) (hs : s ≠ "") :
    mkPath (s :: ss) ≠ "/" := by
  intro h
  have hd := congrArg String.data h
  rw [mkPath_data] at hd
  have hj : (pyJoin "/" (s :: ss)).data = [] := by
    have : '/' :: (pyJoin "/" (s :: ss)).data = ['/'] := hd
    injection this
  cases ss with
  | nil =>
    apply hs
    have hsd : s.data = [] := hj
    rw [← strMk_data s, hsd]
  | cons t rs =>
    have h2 : ((s ++ "/") ++ pyJoin "/" (t :: rs)).data = [] := hj
    rw [strData_append, strData_append] at h2
    simp at h2

/-- Claim C6: path normalization is idempotent on normalized absolute
paths, resolving `.` against a normalized path is the identity, a `..` at
the root is a no-op, and the normalization stack never retains a `..`
segment (so no resolved path ever has a dangling leading `..`). -/
theorem C6_normalization_idempotent (segs parts : List String)
    (h : ∀ s ∈ segs, goodSeg s) :
    normalizePath (mkPath segs) = mkPath segs ∧
    resolvePath (mkPath segs) "." = mkPath segs ∧
    resolvePath "/" ".." = "/" ∧
    ".." ∉ normSegs parts := by
  have hgood1 : ∀ s ∈ segs, s ≠ "" ∧ s ≠ "." := fun s hs =>
    ⟨(h s hs).1, (h s hs).2.1⟩
  have hgood2 : ∀ s ∈ segs, s ≠ ".." := fun s hs => (h s hs).2.2.1
  have hgood3 : ∀ s ∈ segs, '/' ∉ s.data := fun s hs => (h s hs).2.2.2
  refine ⟨?_, ?_, by decide, ?_⟩
  · cases segs with
    | nil => decide
    | cons s ss =>
      unfold normalizePath
      rw [mkPath_split (s :: ss) (by simp) hgood3]
      have hk1 : keepSeg "" = false := by decide
      have hfil : ("" :: s :: ss).filter keepSeg = s :: ss := by
        rw [List.filter_cons, hk1]
        simp only [Bool.false_eq_true, if_false]
        exact filter_keepSeg_good _ hgood1
      rw [hfil]
      unfold normSegs
      rw [normSegs_push _ hgood2 []]
      rfl
  · unfold resolvePath
    rw [show startsWithSlash "." = false from rfl]
    simp only [Bool.false_eq_true, if_false]
    cases segs with
    | nil => decide
    | cons s ss =>
      rw [if_neg (mkPath_ne_root s ss (h s (List.mem_cons_self s ss)).1)]
      unfold normalizePath
      rw [pySplitSlash_append_seg _ "." (by decide),
        mkPath_split (s :: ss) (by simp) hgood3]
      have hk1 : keepSeg "" = false := by decide
      have hk2 : keepSeg "." = false := by decide
      have hfil : (("" :: s :: ss) ++ ["."]).filter keepSeg = s :: ss := by
        rw [List.filter_append, List.filter_cons, hk1]
        simp only [Bool.false_eq_true, if_false]
        rw [filter_keepSeg_good _ hgood1]
        simp [List.filter, hk2]
      rw [hfil]
      unfold normSegs
      rw [normSegs_push _ hgood2 []]
      rfl
  · intro hmem
    exact normSegs_no_dotdot parts [] (by simp) ".." hmem rfl

theorem C6_normalization_witness :
    normalizePath (mkPath ["a", "b"]) = mkPath ["a", "b"] ∧
    resolvePath (mkPath ["a", "b"]) "." = mkPath ["a", "b"] ∧
    resolvePath "/" ".." = "/" ∧
    ".." ∉ normSegs ["x", "..", "..", "y"] :=
  C6_normalization_idempotent ["a", "b"] ["x", "..", "..", "y"] (by decide)

/-! Section: Claim C8: script execution does not halt on error results -/

theorem execute_script_cons_skip (line : String) (rest : List String)
    (vfs : Option VFS)
    (hg : ¬(pyStrip line ≠ "" ∧ firstIsHash (pyStrip line) = false)) :
    execute_script (line :: rest) vfs = execute_script rest vfs := by
  simp only [execute_script]
  rw [if_neg hg]

theorem execute_script_cons_exit (line : String) (rest : List String)
    (vfs v : Option VFS)
    (hg : pyStrip line ≠ "" ∧ firstIsHash (pyStrip line) = false)
    (hcmd : handle_command (pyStrip line) vfs = (CmdOutcome.exit, v)) :
    execute_script (line :: rest) vfs = (v, [], true) := by
  simp only [execute_script]
  rw [if_pos hg, hcmd]

theorem execute_script_cons_run (line : String) (rest : List String)
    (vfs v : Option VFS) (out : String)
    (hg : pyStrip line ≠ "" ∧ firstIsHash (pyStrip line) = false)
    (hcmd : handle_command (pyStrip line) vfs = (CmdOutcome.result out, v)) :
    execute_script (line :: rest) vfs =
      ((execute_script rest v).1,
       (if out ≠ "" then [out] else []) ++ (execute_script rest v).2.1,
       (execute_script rest v).2.2) := by
  simp only [execute_script]
  rw [if_pos hg, hcmd]

/-- Claim C8 counterexample.  The claim states that script execution halts
on the first command whose result signals an error.  On the code, the
script `cd /nope; cd /a` first produces a "No such directory" error result,
yet the second line still executes (the final current path is `/a`). -/
theorem C8_halt_counterexample :
    execute_script ["cd /nope", "cd /a"] (some sampleVfs) =
      (some (VFS.mk sampleRoot "/a"),
       ["cd: /nope: No such directory"], false) := by rfl

/-- Claim C8, amended: script execution never halts on an error result:
running `l1 ++ l2` always continues into `l2` with the state left by `l1`,
whatever result strings `l1` produced — the only way later lines are
skipped is an `exit` command terminating the process. -/
theorem C8_script_continues_after_error (l1 l2 : List String)
    (vfs : Option VFS) (h : (execute_script l1 vfs).2.2 = false) :
    (execute_script (l1 ++ l2) vfs).1 =
      (execute_script l2 (execute_script l1 vfs).1).1 ∧
    (execute_script (l1 ++ l2) vfs).2.1 =
      (execute_script l1 vfs).2.1 ++
        (execute_script l2 (execute_script l1 vfs).1).2.1 ∧
    (execute_script (l1 ++ l2) vfs).2.2 =
      (execute_script l2 (execute_script l1 vfs).1).2.2 := by
  induction l1 generalizing vfs with
  | nil => simp [execute_script]
  | cons line rest ih =>
    by_cases hg : pyStrip line ≠ "" ∧ firstIsHash (pyStrip line) = false
    · rcases hcmd : handle_command (pyStrip line) vfs with ⟨o, v⟩
      cases o with
      | exit =>
        rw [execute_script_cons_exit line rest vfs v hg hcmd] at h
        cases h
      | result out =>
        rw [execute_script_cons_run line rest vfs v out hg hcmd] at h
        obtain ⟨ih1, ih2, ih3⟩ := ih v h
        rw [List.cons_append,
          execute_script_cons_run line (rest ++ l2) vfs v out hg hcmd,
          execute_script_cons_run line rest vfs v out hg hcmd]
        exact ⟨ih1, by rw [ih2, List.append_assoc], ih3⟩
    · rw [execute_script_cons_skip line rest vfs hg] at h
      rw [List.cons_append,
        execute_script_cons_skip line (rest ++ l2) vfs hg,
        execute_script_cons_skip line rest vfs hg]
      exact ih vfs h

theorem C8_script_continues_witness :
    (execute_script (["cd /nope"] ++ ["cd /a"]) (some sampleVfs)).1 =
      (execute_script ["cd /a"]
        (execute_script ["cd /nope"] (some sampleVfs)).1).1 ∧
    (execute_script (["cd /nope"] ++ ["cd /a"]) (some sampleVfs)).2.1 =
      (execute_script ["cd /nope"] (some sampleVfs)).2.1 ++
        (execute_script ["cd /a"]
          (execute_script ["cd /nope"] (some sampleVfs)).1).2.1 ∧
    (execute_script (["cd /nope"] ++ ["cd /a"]) (some sampleVfs)).2.2 =
      (execute_script ["cd /a"]
        (execute_script ["cd /nope"] (some sampleVfs)).1).2.2 :=
  C8_script_continues_after_error ["cd /nope"] ["cd /a"] (some sampleVfs) rfl

/-! Section: Claim C9: round-trip of loaded content -/

theorem rowContentValue_file (c s : String)
    (hdec : b64decodeUtf8 c = some s) : rowContentValue "file" c = s := by
  by_cases hc : c = ""
  · subst hc
    have hs : some ("" : String) = some s := hdec
    obtain rfl : ("" : String) = s := by injection hs
    rfl
  · unfold rowContentValue
    rw [if_pos ⟨rfl, hc⟩, hdec]

theorem loadRowsFrom_append (a : List Row) :
    ∀ (t : VFSNode) (b : List Row),
    loadRowsFrom t (a ++ b) =
      (loadRowsFrom t a).bind (fun t2 => loadRowsFrom t2 b) := by
  induction a with
  | nil => intro t b; rfl
  | cons r rest ih =>
    intro t b
    simp only [List.cons_append, loadRowsFrom]
    cases hpr : processRow t r with
    | none => rfl
    | some t2 => simp only [Option.some_bind]; exact ih t2 b

/-- Processing a list of later records, none of whose paths is equal to or
an ancestor of `parts`, preserves the type and content of the node that
`parts` locates. -/
theorem loadRows_preserve (post : List Row) :
    ∀ (t tree n : VFSNode) (parts : List String),
    locateParts t parts = some n →
    (∀ q ∈ post, q.path = "/" ∨ isPre (pathParts q.path) parts = false) →
    loadRowsFrom t post = some tree →
    ∃ n2, locateParts tree parts = some n2 ∧ n2.type = n.type ∧
      n2.content = n.content := by
  induction post with
  | nil =>
    intro t tree n parts hl _ hload
    obtain rfl : t = tree := by injection hload
    exact ⟨n, hl, rfl, rfl⟩
  | cons q qs ih =>
    intro t tree n parts hl hq hload
    simp only [loadRowsFrom] at hload
    cases hpr : processRow t q with
    | none =>
      rw [hpr, Option.none_bind] at hload
      cases hload
    | some t2 =>
      rw [hpr, Option.some_bind] at hload
      have hq1 := hq q (List.mem_cons_self q qs)
      have hqs : ∀ x ∈ qs, x.path = "/" ∨ isPre (pathParts x.path) parts =
          false := fun x hx => hq x (List.mem_cons_of_mem q hx)
      cases hq1 with
      | inl hroot =>
        have ht2 : t2 = t := by
          have : processRow t q = some t := by
            unfold processRow addNode
            rw [if_pos hroot]
          rw [this] at hpr
          injection hpr
          simp_all
        subst ht2
        exact ih t2 tree n parts hl hqs hload
      | inr hpre =>
        have hp : q.path ≠ "/" := by
          intro h0
          rw [h0, pathParts_slash] at hpre
          simp [isPre] at hpre
        cases hpp : pathParts q.path with
        | nil =>
          exfalso
          have : processRow t q = none := by
            unfold processRow addNode
            rw [if_neg hp, hpp]
          rw [this] at hpr
          cases hpr
        | cons p ps =>
          have ht2 : t2 = addParts t (p :: ps) q.type
              (some (rowContentValue q.type q.content)) := by
            have : processRow t q = some (addParts t (p :: ps) q.type
                (some (rowContentValue q.type q.content))) := by
              unfold processRow addNode
              rw [if_neg hp, hpp]
            rw [this] at hpr
            injection hpr
            simp_all
          subst ht2
          rw [hpp] at hpre
          obtain ⟨n2, hn2, hty2, hct2⟩ :=
            locateParts_addParts_ne (p :: ps) parts t n q.type
              (some (rowContentValue q.type q.content)) hl hpre
          obtain ⟨n3, hn3, hty3, hct3⟩ := ih _ tree n2 parts hn2 hqs hload
          exact ⟨n3, hn3, hty3.trans hty2, hct3.trans hct2⟩

/-- Claim C9 counterexample.  The claim states that for every file record
with base64 content `C` in a successfully loaded source, locating its path
yields a File node whose content is the decoding of `C`.  On the code, a
source declaring `/a` twice loads successfully, and the path of the first
record (content base64 of "hi") holds the later record's decoded content
"yo" instead. -/
theorem C9_roundtrip_counterexample :
    (loadRows [Row.mk "/a" "file" "aGk=",
      Row.mk "/a" "file" "eW8="]).isSome = true ∧
    ((loadRows [Row.mk "/a" "file" "aGk=", Row.mk "/a" "file" "eW8="]).bind
      (fun t => locateParts t (pathParts "/a"))).map VFSNode.content =
        some (some "yo") ∧
    b64decodeUtf8 "aGk=" = some "hi" ∧
    some ("yo" : String) ≠ some ("hi" : String) :=
  ⟨rfl, rfl, rfl, by decide⟩

/-- Claim C9, amended: the round trip holds for every file record with
valid base64 content whose path is not re-declared, and not overwritten via
an ancestor, by any later record: if no later record's path is equal to or
a prefix of the record's path, then locating the record's path in the
loaded tree yields a node of type file whose content is the base64 decoding
of the record's content. -/
theorem C9_content_roundtrip (pre post : List Row) (r : Row) (s : String)
    (tree : VFSNode)
    (hty : r.type = "file") (hdec : b64decodeUtf8 r.content = some s)
    (hne : pathParts r.path ≠ [])
    (hload : loadRows (pre ++ r :: post) = some tree)
    (hlater : ∀ q ∈ post, q.path = "/" ∨
      isPre (pathParts q.path) (pathParts r.path) = false) :
    ∃ n, locateParts tree (pathParts r.path) = some n ∧
      n.type = "file" ∧ n.content = some s := by
  unfold loadRows at hload
  rw [loadRowsFrom_append] at hload
  cases hpre : loadRowsFrom initialRoot pre with
  | none => rw [hpre] at hload; cases hload
  | some t0 =>
    rw [hpre] at hload
    simp only [Option.bind] at hload
    simp only [loadRowsFrom] at hload
    have hp : r.path ≠ "/" := by
      intro h0
      exact hne (by rw [h0, pathParts_slash])
    have hrowc : rowContentValue r.type r.content = s := by
      rw [hty]
      exact rowContentValue_file r.content s hdec
    cases hpp : pathParts r.path with
    | nil => exact absurd hpp hne
    | cons p ps =>
      have hpr : processRow t0 r =
          some (addParts t0 (p :: ps) "file" (some s)) := by
        unfold processRow addNode
        rw [hrowc, if_neg hp, hpp, hty]
      rw [hpr] at hload
      obtain ⟨nm, hnm⟩ :=
        locateParts_addParts_self (p :: ps) t0 "file" (some s) (by simp)
      rw [hpp] at hlater
      obtain ⟨n2, hn2, hty2, hct2⟩ := loadRows_preserve post
        (addParts t0 (p :: ps) "file" (some s)) tree
        (VFSNode.mk nm "file" (some s) []) (p :: ps) hnm hlater hload
      exact ⟨n2, hn2, hty2, hct2⟩

theorem C9_content_roundtrip_witness :
    ∃ n, locateParts (VFSNode.mk "" "dir" none
        [("a", VFSNode.mk "a" "file" (some "hi") []),
         ("b", VFSNode.mk "b" "dir" (some "") [])])
        (pathParts "/a") = some n ∧
      n.type = "file" ∧ n.content = some "hi" :=
  C9_content_roundtrip [] [Row.mk "/b" "dir" ""] (Row.mk "/a" "file" "aGk=")
    "hi" (VFSNode.mk "" "dir" none
        [("a", VFSNode.mk "a" "file" (some "hi") []),
         ("b", VFSNode.mk "b" "dir" (some "") [])])
    rfl rfl (by decide) rfl (by decide)

/-! Section: Claim C10: the current-path invariant -/

theorem handle_command_none (line : String) :
    (handle_command line none).2 = none := by
  unfold handle_command
  cases hsp : shlexSplit line with
  | none => rfl
  | some parts =>
    cases parts with
    | nil => rfl
    | cons cmd args =>
      by_cases he : cmd = "exit"
      · simp [he]
      · by_cases hl : cmd = "ls"
        · simp [he, hl]
        · by_cases hc : cmd = "cd"
          · simp [he, hl, hc, handle_cd]
          · simp [he, hl, hc]

theorem runCommands_none (lines : List String) :
    runCommands lines none = none := by
  induction lines with
  | nil => rfl
  | cons line rest ih =>
    rcases hcmd : handle_command line none with ⟨o, v⟩
    have hv : v = none := by
      have h0 := handle_command_none line
      rw [hcmd] at h0
      exact h0
    subst hv
    cases o with
    | exit => simp only [runCommands, hcmd]
    | result out =>
      simp only [runCommands, hcmd]
      exact ih

/-- Every dispatched command preserves the tree, and either leaves the
session untouched or (successful `cd` only) moves to a current path whose
directory-checked walk it has just verified. -/
theorem handle_command_preserves (line : String) (v v2 : VFS) (o : CmdOutcome)
    (h : handle_command line (some v) = (o, some v2)) :
    v2.root = v.root ∧
    (v2 = v ∨ ∃ n, walkDirs v2.root (pathParts v2.current_path) = some n) := by
  unfold handle_command at h
  split at h
  · injection h with h1 h2
    injection h2 with h2
    subst h2
    exact ⟨rfl, Or.inl rfl⟩
  · injection h with h1 h2
    injection h2 with h2
    subst h2
    exact ⟨rfl, Or.inl rfl⟩
  · rename_i cmd args hsp
    by_cases he : cmd = "exit"
    · rw [if_pos he] at h
      injection h with h1 h2
      injection h2 with h2
      subst h2
      exact ⟨rfl, Or.inl rfl⟩
    · rw [if_neg he] at h
      by_cases hl : cmd = "ls"
      · rw [if_pos hl] at h
        injection h with h1 h2
        injection h2 with h2
        subst h2
        exact ⟨rfl, Or.inl rfl⟩
      · rw [if_neg hl] at h
        by_cases hc : cmd = "cd"
        · rw [if_pos hc] at h
          cases args with
          | nil =>
            simp only [handle_cd] at h
            injection h with h1 h2
            injection h2 with h2
            subst h2
            exact ⟨rfl, Or.inl rfl⟩
          | cons a as =>
            cases as with
            | nil =>
              cases hw : walkDirs v.root
                  (pathParts (resolvePath v.current_path a)) with
              | some m =>
                simp only [handle_cd, hw] at h
                injection h with h1 h2
                injection h2 with h2
                subst h2
                refine ⟨rfl, Or.inr ⟨m, ?_⟩⟩
                exact hw
              | none =>
                simp only [handle_cd, hw] at h
                injection h with h1 h2
                injection h2 with h2
                subst h2
                exact ⟨rfl, Or.inl rfl⟩
            | cons b bs =>
              simp only [handle_cd] at h
              injection h with h1 h2
              injection h2 with h2
              subst h2
              exact ⟨rfl, Or.inl rfl⟩
        · rw [if_neg hc] at h
          injection h with h1 h2
          injection h2 with h2
          subst h2
          exact ⟨rfl, Or.inl rfl⟩

theorem runCommands_preserves (lines : List String) :
    ∀ (v v2 : VFS), runCommands lines (some v) = some v2 →
    (∃ n, walkDirs v.root (pathParts v.current_path) = some n) →
    v2.root = v.root ∧
    ∃ n, walkDirs v2.root (pathParts v2.current_path) = some n := by
  induction lines with
  | nil =>
    intro v v2 h hinv
    obtain rfl : v = v2 := by injection h
    exact ⟨rfl, hinv⟩
  | cons line rest ih =>
    intro v v2 h hinv
    rcases hcmd : handle_command line (some v) with ⟨o, v1⟩
    cases o with
    | exit =>
      simp only [runCommands, hcmd] at h
      subst h
      obtain ⟨hroot, hcase⟩ := handle_command_preserves line v v2 _ hcmd
      cases hcase with
      | inl he =>
        rw [he]
        exact ⟨rfl, hinv⟩
      | inr evid => exact ⟨hroot, evid⟩
    | result out =>
      simp only [runCommands, hcmd] at h
      cases hv1 : v1 with
      | none =>
        rw [hv1, runCommands_none] at h
        cases h
      | some w =>
        rw [hv1] at h hcmd
        obtain ⟨hroot1, hcase⟩ := handle_command_preserves line v w _ hcmd
        have hinvw : ∃ n, walkDirs w.root (pathParts w.current_path) =
            some n := by
          cases hcase with
          | inl he => rw [he]; exact hinv
          | inr evid => exact evid
        obtain ⟨hroot2, hinv2⟩ := ih w v2 h hinvw
        exact ⟨hroot2.trans hroot1, hinv2⟩

/-- Claim C10: starting at the root of a loaded tree whose root is a
Directory, after any sequence of dispatched commands the current path still
resolves, by a downward walk from the (unchanged) root, to an existing
Directory node. -/
theorem C10_current_path_invariant (lines : List String) (v0 v1 : VFS)
    (hroot : v0.root.type = "dir") (hstart : v0.current_path = "/")
    (hrun : runCommands lines (some v0) = some v1) :
    v1.root = v0.root ∧
    ∃ n, locateParts v1.root (pathParts v1.current_path) = some n ∧
      n.type = "dir" := by
  have hinv0 : ∃ n, walkDirs v0.root (pathParts v0.current_path) = some n := by
    rw [hstart, pathParts_slash]
    exact ⟨v0.root, rfl⟩
  obtain ⟨hr, n, hw⟩ := runCommands_preserves lines v0 v1 hrun hinv0
  refine ⟨hr, ?_⟩
  have hd1 : v1.root.type = "dir" := by rw [hr]; exact hroot
  obtain ⟨hloc, hdir⟩ := walkDirs_locate _ v1.root n hd1 hw
  exact ⟨n, hloc, hdir⟩

theorem C10_current_path_invariant_witness :
    (VFS.mk sampleRoot "/a").root = sampleVfs.root ∧
    ∃ n, locateParts (VFS.mk sampleRoot "/a").root
        (pathParts (VFS.mk sampleRoot "/a").current_path) = some n ∧
      n.type = "dir" :=
  C10_current_path_invariant ["cd a", "ls", "cd nope"] sampleVfs
    (VFS.mk sampleRoot "/a") (by decide) rfl rfl
